import Mathlib

set_option maxRecDepth 4000

/-!
# Verification of `generate.py` (stroke-input-data)

A shallow embedding of the stroke-sequence table generator:
the pattern expander (`to_sequence_set`), the characters aggregator
(`CharactersData`), the rank table builder, the record classifier,
and the table emission pipeline, together with theorems settling the
specification claims.

Modelling conventions:
* Python strings are `List Char` (Python compares characters by code point,
  as does `Char`'s order).
* Python sets are duplicate-free `List`s built by membership-guarded
  insertion (`setInsert`); all claims about sets are stated via membership,
  permutation, or after sorting, so insertion order never matters.
* Python dicts are association lists in insertion order.
* A raised Python exception is `Option.none`.
-/

namespace StrokeData

/-- Characters allowed inside a capture group: the regex class `[1-5|]`
of `CAPTURE_GROUP_REGEX`. -/
def isAltChar (c : Char) : Bool :=
  c == '1' || c == '2' || c == '3' || c == '4' || c == '5' || c == '|'

/-- Splitting a group's alternatives on the pipe character, as Python's
`str.split('|')` (empty string yields `[""]`, trailing pipe yields a
trailing empty alternative). -/
def splitBar : List Char → List (List Char)
  | [] => [[]]
  | c :: cs =>
      if c == '|' then [] :: splitBar cs
      else
        match splitBar cs with
        | [] => [[c]]
        | h :: t => (c :: h) :: t

/-- Decimal digit characters of a number, as Python's string formatting of
an `int` (used by `replace_capture_group` to build the back-reference
`\k` for group index `k`). -/
def natDigits (n : Nat) : List Char := Nat.toDigits 10 n

/-- One pass of `re.sub(CAPTURE_GROUP_REGEX, replace_capture_group, …)`:
scan left to right; at each position try to match `\( [1-5|]* \)`
(the character class cannot match `)`, so the greedy run needs no
backtracking); on a match, append the split alternatives to the
accumulator and emit `\k` where `k` is the new length of the accumulator,
continuing after the match; otherwise emit one character and advance.
Structural recursion on a fuel argument (each step consumes at least one
input character, so fuel `= length` suffices). -/
def scanGroupsAux : Nat → List Char → List (List (List Char)) →
    List Char × List (List (List Char))
  | 0, cs, acc => (cs, acc)
  | _ + 1, [], acc => ([], acc)
  | fuel + 1, c :: cs, acc =>
      if c == '(' then
        match cs.dropWhile isAltChar with
        | e :: rest =>
            if e == ')' then
              let acc2 := acc ++ [splitBar (cs.takeWhile isAltChar)]
              let r := scanGroupsAux fuel rest acc2
              ('\\' :: (natDigits acc2.length ++ r.1), r.2)
            else
              let r := scanGroupsAux fuel cs acc
              (c :: r.1, r.2)
        | [] =>
            let r := scanGroupsAux fuel cs acc
            (c :: r.1, r.2)
      else
        let r := scanGroupsAux fuel cs acc
        (c :: r.1, r.2)

/-- The capture-group replacement pass of `to_sequence_set`: returns the
back-referenced skeleton and the list of alternative-lists, in group-index
order. -/
def scanGroups (p : List Char) : List Char × List (List (List Char)) :=
  scanGroupsAux p.length p []

/-- The regex class `[1-9]` of `BACK_REFERENCE_REGEX`. -/
def isRefDigit (c : Char) : Bool := '1' ≤ c && c ≤ '9'

/-- `re.sub(BACK_REFERENCE_REGEX, replace_back_reference, …)` for one
tuple of alternative choices: scan left to right; a backslash followed by
a digit `1`–`9` is replaced by `alternatives_combination[k - 1]`
(`none` models the `IndexError` when the index is out of range);
any other character is emitted unchanged. -/
def scanBackRefs (combo : List (List Char)) : List Char → Option (List Char)
  | [] => some []
  | [c] => some [c]
  | c :: d :: cs =>
      if c == '\\' && isRefDigit d then
        match combo.get? (d.toNat - '1'.toNat) with
        | some alt => (scanBackRefs combo cs).map (fun t => alt ++ t)
        | none => none
      else
        (scanBackRefs combo (d :: cs)).map (fun t => c :: t)

/-- `itertools.product` over the group alternative-lists, in group-index
order. -/
def listProduct : List (List (List Char)) → List (List (List Char))
  | [] => [[]]
  | g :: gs => (g.map (fun a => (listProduct gs).map (fun t => a :: t))).flatten

/-- Python `set.add` for a set of sequences represented as a
duplicate-free list. -/
def setInsert (s : List Char) (l : List (List Char)) : List (List Char) :=
  if s ∈ l then l else l ++ [s]

/-- The expansion loop of `to_sequence_set`: substitute the back
references for every combination, collecting results into a set; any
out-of-range back reference raises (`none`). -/
def expandCombos (sk : List Char) : List (List (List Char)) →
    Option (List (List Char))
  | [] => some []
  | combo :: rest =>
      match scanBackRefs combo sk with
      | none => none
      | some s => (expandCombos sk rest).map (setInsert s)

/-- `to_sequence_set`: convert a stroke sequence regex to the set of
stroke sequences it denotes, or `none` on a raised `IndexError`. -/
def to_sequence_set (p : List Char) : Option (List (List Char)) :=
  let sg := scanGroups p
  expandCombos sg.1 (listProduct sg.2)

example : splitBar [] = [[]] := by decide
example : splitBar ['1', '|', '2'] = [['1'], ['2']] := by decide
example : splitBar ['1', '|'] = [['1'], []] := by decide

example : scanGroups ['(', '1', '|', '2', ')', '\\', '1'] =
    (['\\', '1', '\\', '1'], [[['1'], ['2']]]) := by decide

example : to_sequence_set ['(', '1', '|', '2', ')', '\\', '1'] =
    some [['2', '2'], ['1', '1']] := by decide

example : to_sequence_set ['1', '2', '3'] = some [['1', '2', '3']] := by
  decide

/-- Python `set.add` for a set of characters represented as a
duplicate-free list. -/
def setInsertChar (c : Char) (l : List Char) : List Char :=
  if c ∈ l then l else l ++ [c]

/-- `CharactersData`: the goodly (preferred) and abomination (discouraged)
character sets. -/
structure CharactersData where
  goodly_set : List Char
  abomination_set : List Char
deriving DecidableEq

instance : Inhabited CharactersData := ⟨⟨[], []⟩⟩

/-- `CharactersData.add_goodly`. -/
def CharactersData.add_goodly (dta : CharactersData) (c : Char) :
    CharactersData :=
  ⟨setInsertChar c dta.goodly_set, dta.abomination_set⟩

/-- `CharactersData.add_abomination`. -/
def CharactersData.add_abomination (dta : CharactersData) (c : Char) :
    CharactersData :=
  ⟨dta.goodly_set, setInsertChar c dta.abomination_set⟩

/-- `CharactersData.add_data`: union the other data's goodly characters,
then its abomination characters, into this data. -/
def CharactersData.add_data (dta other : CharactersData) : CharactersData :=
  other.abomination_set.foldl CharactersData.add_abomination
    (other.goodly_set.foldl CharactersData.add_goodly dta)

/-- `character_sorting_function` returns the key `(sorting_rank, character)`
and Python's `sorted` orders by that pair lexicographically; `charRankLe rk`
is that lexicographic order on characters for rank function `rk`. -/
def charRankLe (rk : Char → Nat) (a b : Char) : Prop :=
  rk a < rk b ∨ (rk a = rk b ∧ a ≤ b)

instance (rk : Char → Nat) : DecidableRel (charRankLe rk) := fun _ _ => by
  unfold charRankLe; infer_instance

instance (rk : Char → Nat) : IsTotal Char (charRankLe rk) where
  total a b := by
    rcases Nat.lt_trichotomy (rk a) (rk b) with h | h | h
    · exact Or.inl (Or.inl h)
    · rcases le_total a b with h2 | h2
      · exact Or.inl (Or.inr ⟨h, h2⟩)
      · exact Or.inr (Or.inr ⟨h.symm, h2⟩)
    · exact Or.inr (Or.inl h)

instance (rk : Char → Nat) : IsTrans Char (charRankLe rk) where
  trans a b c hab hbc := by
    rcases hab with hab | ⟨hab, hab2⟩
    · rcases hbc with hbc | ⟨hbc, _⟩
      · exact Or.inl (hab.trans hbc)
      · exact Or.inl (hbc ▸ hab)
    · rcases hbc with hbc | ⟨hbc, hbc2⟩
      · exact Or.inl (hab ▸ hbc)
      · exact Or.inr ⟨hab.trans hbc, hab2.trans hbc2⟩

instance (rk : Char → Nat) : IsAntisymm Char (charRankLe rk) where
  antisymm a b hab hba := by
    rcases hab with hab | ⟨hab, hab2⟩
    · rcases hba with hba | ⟨hba, _⟩
      · exact absurd (hab.trans hba) (lt_irrefl _)
      · exact absurd hab (hba ▸ lt_irrefl _)
    · rcases hba with hba | ⟨_, hba2⟩
      · exact absurd hba (hab ▸ lt_irrefl _)
      · exact le_antisymm hab2 hba2

/-- `join_sorted`: join a set of characters, sorted by the key
`(rank, character)`.  Python's stable sort with this injective key is
modelled by insertion sort under the lexicographic key order. -/
def join_sorted (l : List Char) (rk : Char → Nat) : List Char :=
  List.insertionSort (charRankLe rk) l

/-- `CharactersData.to_string`: the sorted goodly characters, then a comma
and the sorted abomination characters when any survive truncation.  With a
positive `max_candidate_count` the goodly string is truncated to it and
the abomination budget is `max(0, max_candidate_count - len(goodly_string))`,
computed from the untruncated goodly length (natural subtraction models
Python's clamp to zero). -/
def CharactersData.to_string (dta : CharactersData) (rk : Char → Nat)
    (max_candidate_count : Nat := 0) : List Char :=
  let goodly_string := join_sorted dta.goodly_set rk
  let abomination_string := join_sorted dta.abomination_set rk
  let goodly_out :=
    if 0 < max_candidate_count then goodly_string.take max_candidate_count
    else goodly_string
  let abomination_out :=
    if 0 < max_candidate_count then
      abomination_string.take (max_candidate_count - goodly_string.length)
    else abomination_string
  if abomination_out = [] then goodly_out
  else goodly_out ++ ',' :: abomination_out

/-- `IGNORED_RANKING_LINE_REGEX` (`[\s]* [#] .*`) as a full match: optional
whitespace then `#` then anything. -/
def line_is_ignored (l : List Char) : Bool :=
  match l.dropWhile (fun c => c.isWhitespace) with
  | '#' :: _ => true
  | _ => false

/-- The rank-table state of `__main__`: `sorting_rank_from_character` as
an association list in insertion order, and `infinite_sorting_rank`. -/
structure RankState where
  ranks : List (Char × Nat)
  infinite : Nat
deriving DecidableEq

/-- Dict lookup in `sorting_rank_from_character`. -/
def rankFind (ranks : List (Char × Nat)) (c : Char) : Option Nat :=
  (ranks.find? (fun p => p.1 == c)).map (fun p => p.2)

/-- One character of a non-ignored ranking line at 1-based line number
`ln`: a first occurrence sets the character's rank to `ln` and sets
`infinite_sorting_rank` to `ln + 1`. -/
def addRankChar (ln : Nat) (st : RankState) (c : Char) : RankState :=
  match rankFind st.ranks c with
  | some _ => st
  | none => ⟨st.ranks ++ [(c, ln)], ln + 1⟩

/-- The ranking loop of `__main__`, starting at line number `ln`: ignored
lines are skipped, other lines contribute their characters in order. -/
def processRankingLines : List (List Char) → Nat → RankState → RankState
  | [], _, st => st
  | l :: ls, ln, st =>
      processRankingLines ls (ln + 1)
        (if line_is_ignored l then st else l.foldl (addRankChar ln) st)

/-- The rank table built from the ranking source
(`enumerate(get_lines('ranking.txt'), 1)` with `infinite_sorting_rank = 0`
initially). -/
def rankState (lines : List (List Char)) : RankState :=
  processRankingLines lines 1 ⟨[], 0⟩

/-- The rank component of `character_sorting_function`:
`sorting_rank_from_character.get(character, infinite_sorting_rank)`. -/
def sortingRank (st : RankState) (c : Char) : Nat :=
  (rankFind st.ranks c).getD st.infinite

/-- The regex class `[0-9A-F]` of `COMPLIANT_LINE_REGEX`. -/
def isHexUpper (c : Char) : Bool :=
  ('0' ≤ c && c ≤ '9') || ('A' ≤ c && c ≤ 'F')

/-- The regex class `[1-5|()\\]` of `COMPLIANT_LINE_REGEX`. -/
def isSeqRegexChar (c : Char) : Bool :=
  c == '1' || c == '2' || c == '3' || c == '4' || c == '5' ||
  c == '|' || c == '(' || c == ')' || c == '\\'

/-- `re.fullmatch(COMPLIANT_LINE_REGEX, line)`: `U+`, 4–5 uppercase hex
digits, a tab, one non-whitespace character, an optional `*`, a tab, and a
non-empty run of the pattern alphabet reaching the end of the line.
Returns the character, the abomination flag, and the pattern. -/
def matchCompliantLine (l : List Char) : Option (Char × Bool × List Char) :=
  match l with
  | 'U' :: '+' :: rest =>
      let hexRun := rest.takeWhile isHexUpper
      if 4 ≤ hexRun.length && hexRun.length ≤ 5 then
        match rest.dropWhile isHexUpper with
        | '\t' :: c :: rest2 =>
            if c.isWhitespace then none
            else
              match rest2 with
              | '*' :: '\t' :: pat =>
                  if !pat.isEmpty && pat.all isSeqRegexChar then
                    some (c, true, pat)
                  else none
              | '\t' :: pat =>
                  if !pat.isEmpty && pat.all isSeqRegexChar then
                    some (c, false, pat)
                  else none
              | _ => none
        | _ => none
      else none
  | _ => none

/-- Python string `<`: lexicographic comparison by code point. -/
def pyLt : List Char → List Char → Bool
  | [], [] => false
  | [], _ :: _ => true
  | _ :: _, [] => false
  | x :: xs, y :: ys => if x < y then true else if y < x then false else pyLt xs ys

/-- The reflexive closure of `pyLt`: the order by which `__main__` sorts
the exact-table keys (`sorted(exact_characters_data_from_sequence.keys())`). -/
def pyLe (a b : List Char) : Prop := pyLt a b = true ∨ a = b

instance : DecidableRel pyLe := fun _ _ => by
  unfold pyLe; infer_instance

/-- `sorted` over sequence keys. -/
def sortSequences (l : List (List Char)) : List (List Char) :=
  List.insertionSort pyLe l

/-- `MAX_CHARACTER = chr(0x10FFFF)`. -/
def MAX_CHARACTER : Char := Char.ofNat 0x10FFFF

/-- The sentinel range test of the prefix loop:
`prefix_sequence < full_sequence < prefix_sequence + MAX_CHARACTER`. -/
def rangeTest (p s : List Char) : Bool :=
  pyLt p s && pyLt s (p ++ [MAX_CHARACTER])

/-- `PRECOMPUTE_PREFIX_MATCHES_MAX_STOKE_COUNT = 3` (name shortened). -/
def PRECOMPUTE_MAX_STOKE_COUNT : Nat := 3

/-- `MAX_PREFIX_MATCH_COUNT = 20` (name shortened). -/
def MAX_PFX_MATCH_COUNT : Nat := 20

/-- The five stroke digits `'12345'`. -/
def strokeDigits : List Char := ['1', '2', '3', '4', '5']

/-- `itertools.product('12345', repeat=n)` joined to strings, in
lexicographic order. -/
def digitStrings : Nat → List (List Char)
  | 0 => [[]]
  | n + 1 =>
      (strokeDigits.map (fun d => (digitStrings n).map (fun t => d :: t))).flatten

/-- `prefix_sequence_list`: all digit strings of length 1..3, in
increasing length then lexicographic order. -/
def pfxSequenceList : List (List Char) :=
  ((List.range PRECOMPUTE_MAX_STOKE_COUNT).map
    (fun n => digitStrings (n + 1))).flatten

/-- The aggregation of the prefix loop: fold `add_data` over the exact map
entries selected by the sentinel range test, starting from a fresh
`CharactersData()`. -/
def aggregateData (m : List (List Char × CharactersData)) (p : List Char) :
    CharactersData :=
  m.foldl (fun acc kv => if rangeTest p kv.1 then acc.add_data kv.2 else acc)
    ⟨[], []⟩

/-- Exact-map lookup (`exact_characters_data_from_sequence[sequence]`,
keys always present when used). -/
def mapFind (m : List (List Char × CharactersData)) (s : List Char) :
    CharactersData :=
  ((m.find? (fun kv => kv.1 == s)).map (fun kv => kv.2)).getD ⟨[], []⟩

/-- The table emission of `__main__` from the accumulated exact map and a
rank function: exact-table lines (sorted sequences, uncapped data) and
prefix-table lines (fixed key order, data capped at 20); the static file
headers are omitted. -/
def emitTables (rk : Char → Nat) (m : List (List Char × CharactersData)) :
    List (List Char) × List (List Char) :=
  ((sortSequences (m.map Prod.fst)).map
      (fun s => s ++ '\t' :: (mapFind m s).to_string rk),
   pfxSequenceList.map
      (fun p => p ++ '\t' :: (aggregateData m p).to_string rk MAX_PFX_MATCH_COUNT))

/-- Registering one character under one sequence
(`exact_characters_data_from_sequence` dict update: in-place when the key
exists, appended otherwise). -/
def mapAddChar : List (List Char × CharactersData) → List Char → Char →
    Bool → List (List Char × CharactersData)
  | [], s, c, ab =>
      [(s, if ab then CharactersData.add_abomination ⟨[], []⟩ c
           else CharactersData.add_goodly ⟨[], []⟩ c)]
  | kv :: rest, s, c, ab =>
      if kv.1 = s then
        (kv.1, if ab then kv.2.add_abomination c else kv.2.add_goodly c) :: rest
      else kv :: mapAddChar rest s c ab

/-- Processing one catalogue line: a non-compliant line is ignored; a
compliant line's pattern is expanded (a raised `IndexError` aborts the
run, `none`) and every expanded sequence registers the character. -/
def processRecord (m : List (List Char × CharactersData)) (l : List Char) :
    Option (List (List Char × CharactersData)) :=
  match matchCompliantLine l with
  | none => some m
  | some (c, ab, pat) =>
      match to_sequence_set pat with
      | none => none
      | some seqs => some (seqs.foldl (fun acc s => mapAddChar acc s c ab) m)

/-- The catalogue loop of `__main__`. -/
def processCatalogue : List (List Char) →
    List (List Char × CharactersData) →
    Option (List (List Char × CharactersData))
  | [], m => some m
  | l :: ls, m =>
      match processRecord m l with
      | none => none
      | some m2 => processCatalogue ls m2

/-- The whole generator run: build the rank table from the ranking lines,
process the catalogue (a fatal pattern error mid-expansion yields `none`:
the exception propagates before either table file is opened), then emit
both tables. -/
def runGenerator (ranking catalogue : List (List Char)) :
    Option (List (List Char) × List (List Char)) :=
  match processCatalogue catalogue [] with
  | none => none
  | some m => some (emitTables (sortingRank (rankState ranking)) m)

example : MAX_CHARACTER.toNat = 1114111 := by decide

example : line_is_ignored (' ' :: '#' :: 'x' :: []) = true := by decide
example : line_is_ignored ('a' :: 'b' :: []) = false := by decide

example :
    matchCompliantLine ('U' :: '+' :: '4' :: 'E' :: '0' :: '0' :: '\t' ::
      '中' :: '\t' :: '2' :: '5' :: [] ) = some ('中', false, ['2', '5']) := by
  decide

example :
    matchCompliantLine ('U' :: '+' :: '4' :: 'E' :: '0' :: '0' :: '\t' ::
      '中' :: '*' :: '\t' :: '2' :: '5' :: []) = some ('中', true, ['2', '5']) := by
  decide

example : pfxSequenceList.length = 155 := by decide

/-! ## Lemmas about the pattern expander -/

lemma setInsert_mem (s t : List Char) (l : List (List Char)) :
    s ∈ setInsert t l ↔ s = t ∨ s ∈ l := by
  unfold setInsert
  split
  · rename_i hmem
    constructor
    · exact Or.inr
    · rintro (rfl | h)
      · exact hmem
      · exact h
  · simp [List.mem_append, or_comm]

lemma expandCombos_mem (sk : List Char) (combos : List (List (List Char))) :
    ∀ L, expandCombos sk combos = some L →
      ∀ s, s ∈ L ↔ ∃ c, c ∈ combos ∧ scanBackRefs c sk = some s := by
  induction combos with
  | nil =>
      intro L h s
      simp only [expandCombos, Option.some.injEq] at h
      subst h
      simp
  | cons combo rest ih =>
      intro L h s
      unfold expandCombos at h
      rw [show (scanBackRefs combo sk) = scanBackRefs combo sk from rfl] at h
      cases h0 : scanBackRefs combo sk with
      | none => rw [h0] at h; cases h
      | some s0 =>
          rw [h0] at h
          cases h1 : expandCombos sk rest with
          | none => rw [h1] at h; cases h
          | some L2 =>
              rw [h1] at h
              have hL : setInsert s0 L2 = L := Option.some.inj h
              subst hL
              rw [setInsert_mem]
              constructor
              · rintro (rfl | hs)
                · exact ⟨combo, List.mem_cons_self _ _, h0⟩
                · obtain ⟨c, hc, hcs⟩ := (ih L2 h1 s).mp hs
                  exact ⟨c, List.mem_cons_of_mem _ hc, hcs⟩
              · rintro ⟨c, hc, hcs⟩
                rcases List.mem_cons.mp hc with rfl | hc2
                · rw [h0] at hcs
                  exact Or.inl (Option.some.inj hcs).symm
                · exact Or.inr ((ih L2 h1 s).mpr ⟨c, hc2, hcs⟩)

/-! ## C1 -/

/-- C1: for every pattern, expansion enumerates the tuples of group
choices in group-index order and substitutes every occurrence of each
back-reference `\k` with the `k`-th chosen alternative (first conjunct:
a sequence is produced exactly when some choice tuple substitutes to it;
second conjunct: at a back-reference occurrence the substitution inserts
the `k`-th tuple element and continues); in particular `(1|2)\1` expands
to exactly the set containing `11` and `22` (third conjunct). -/
theorem claim_C1 :
    (∀ p L, to_sequence_set p = some L →
      ∀ s, s ∈ L ↔ ∃ c, c ∈ listProduct (scanGroups p).2 ∧
        scanBackRefs c (scanGroups p).1 = some s) ∧
    (∀ combo d cs alt, isRefDigit d = true →
      combo.get? (d.toNat - '1'.toNat) = some alt →
      scanBackRefs combo ('\\' :: d :: cs) =
        (scanBackRefs combo cs).map (fun t => alt ++ t)) ∧
    (∀ s, s ∈ (to_sequence_set ['(', '1', '|', '2', ')', '\\', '1']).getD []
        ↔ (s = ['1', '1'] ∨ s = ['2', '2'])) := by
  refine ⟨?_, ?_, ?_⟩
  · intro p L h s
    unfold to_sequence_set at h
    exact expandCombos_mem _ _ L h s
  · intro combo d cs alt hd hget
    simp only [List.get?_eq_getElem?] at hget
    have h49 : '1'.toNat = 49 := rfl
    rw [h49] at hget
    simp [scanBackRefs, hd, hget]
  · intro s
    have hev : (to_sequence_set ['(', '1', '|', '2', ')', '\\', '1']).getD [] =
        [['2', '2'], ['1', '1']] := by decide
    rw [hev]
    simp only [List.mem_cons, List.not_mem_nil, or_false]
    tauto

theorem claim_C1_witness :
    ['1', '1'] ∈ [['2', '2'], ['1', '1']] ∧
      ['2', '2'] ∈ [['2', '2'], ['1', '1']] :=
  ⟨(claim_C1.1 ['(', '1', '|', '2', ')', '\\', '1'] [['2', '2'], ['1', '1']]
      (by decide) ['1', '1']).mpr ⟨[['1']], by decide, by decide⟩,
   (claim_C1.1 ['(', '1', '|', '2', ')', '\\', '1'] [['2', '2'], ['1', '1']]
      (by decide) ['2', '2']).mpr ⟨[['2']], by decide, by decide⟩⟩

/-! ## C9 -/

/-- C9: a capture group may contain empty alternatives: the record
classifier accepts the patterns `(1|)` and `()`, and expansion treats the
empty string as an ordinary alternative, so `(1|)` expands to the set
containing `1` and the empty string, and `()` to the set containing only
the empty string. -/
theorem claim_C9 :
    matchCompliantLine ['U', '+', '4', 'E', '2', 'D', '\t', '中', '\t',
        '(', '1', '|', ')'] = some ('中', false, ['(', '1', '|', ')']) ∧
    matchCompliantLine ['U', '+', '4', 'E', '2', 'D', '\t', '中', '\t',
        '(', ')'] = some ('中', false, ['(', ')']) ∧
    to_sequence_set ['(', '1', '|', ')'] = some [[], ['1']] ∧
    to_sequence_set ['(', ')'] = some [[]] := by
  refine ⟨by decide, by decide, by decide, by decide⟩

/-! ## C7 -/

/-- C7 counterexample: a fully compliant record whose pattern has nested
capture groups does not abort the run: the line classifies as compliant,
yet the whole generator run succeeds. -/
theorem claim_C7_counterexample :
    matchCompliantLine ['U', '+', '4', 'E', '2', 'D', '\t', '中', '\t',
        '(', '(', '1', '|', '2', ')', ')'] =
      some ('中', false, ['(', '(', '1', '|', '2', ')', ')']) ∧
    (runGenerator [] [['U', '+', '4', 'E', '2', 'D', '\t', '中', '\t',
        '(', '(', '1', '|', '2', ')', ')']]).isSome = true := by
  refine ⟨by decide, by decide⟩

/-- C7 (amended): nested capture groups and patterns with more than 9
capture groups are not detected and do not abort the run; they are
silently absorbed into processing.  A nested pattern `((1|2))` expands to
sequences that still contain parentheses, which are registered in the
exact map; a tenth group's back-reference `\10` is read as `\1` followed
by a literal `0`.  Only a dangling back-reference index aborts the run. -/
theorem claim_C7_amended :
    to_sequence_set ['(', '(', '1', '|', '2', ')', ')'] =
      some [['(', '2', ')'], ['(', '1', ')']] ∧
    processCatalogue [['U', '+', '4', 'E', '2', 'D', '\t', '中', '\t',
        '(', '(', '1', '|', '2', ')', ')']] [] =
      some [(['(', '2', ')'], ⟨['中'], []⟩), (['(', '1', ')'], ⟨['中'], []⟩)] ∧
    to_sequence_set ['(', '1', ')', '(', '1', ')', '(', '1', ')', '(', '1',
        ')', '(', '1', ')', '(', '1', ')', '(', '1', ')', '(', '1', ')',
        '(', '1', ')', '(', '4', '|', '5', ')'] =
      some [['1', '1', '1', '1', '1', '1', '1', '1', '1', '1', '0']] := by
  refine ⟨by decide, by decide, by decide⟩

/-! ## C2: dangling back-references are fatal -/

/-- A back-referenced skeleton contains, at some scan position, a
back-reference `\k` whose 0-based index `k - 1` is not below the group
count `n` (scanned exactly as `scanBackRefs` scans). -/
def hasDangling (n : Nat) : List Char → Bool
  | [] => false
  | [_] => false
  | c :: d :: cs =>
      if c == '\\' && isRefDigit d then
        if d.toNat - '1'.toNat < n then hasDangling n cs else true
      else hasDangling n (d :: cs)

/-- The pattern contains a back-reference whose index exceeds the number
of capture groups present in the pattern. -/
def patternHasDangling (p : List Char) : Bool :=
  hasDangling (scanGroups p).2.length (scanGroups p).1

lemma hasDangling_scanBackRefs_none (combo : List (List Char)) :
    ∀ s : List Char, hasDangling combo.length s = true →
      scanBackRefs combo s = none
  | [], h => by simp [hasDangling] at h
  | [c], h => by simp [hasDangling] at h
  | c :: d :: cs, h => by
      simp only [hasDangling] at h
      simp only [scanBackRefs]
      by_cases hc : (c == '\\' && isRefDigit d) = true
      · rw [if_pos hc] at h
        rw [if_pos hc]
        by_cases hlt : d.toNat - '1'.toNat < combo.length
        · rw [if_pos hlt] at h
          have hnone := hasDangling_scanBackRefs_none combo cs h
          cases hg : combo.get? (d.toNat - '1'.toNat) with
          | none => simp [hg]
          | some alt =>
              simp only [List.get?_eq_getElem?] at hg
              simp [hg, hnone]
        · have hg : combo.get? (d.toNat - '1'.toNat) = none := by
            simp only [List.get?_eq_getElem?]
            exact List.getElem?_eq_none (le_of_not_lt hlt)
          simp only [List.get?_eq_getElem?] at hg
          have h49 : '1'.toNat = 49 := rfl
          rw [h49] at hg
          simp [hg]
      · rw [if_neg hc] at h
        rw [if_neg hc]
        have hnone := hasDangling_scanBackRefs_none combo (d :: cs) h
        simp [hnone]

lemma mem_listProduct_length :
    ∀ (gs : List (List (List Char))) (combo : List (List Char)),
      combo ∈ listProduct gs → combo.length = gs.length := by
  intro gs
  induction gs with
  | nil =>
      intro combo h
      simp only [listProduct, List.mem_singleton] at h
      simp [h]
  | cons g gs ih =>
      intro combo h
      simp only [listProduct, List.mem_flatten, List.mem_map] at h
      obtain ⟨l, ⟨a, _, rfl⟩, hcl⟩ := h
      obtain ⟨t, ht, rfl⟩ := List.mem_map.mp hcl
      simp [ih t ht]

lemma cons_mem_listProduct {g : List (List Char)}
    {gs : List (List (List Char))} {a : List Char} {t : List (List Char)}
    (ha : a ∈ g) (ht : t ∈ listProduct gs) :
    a :: t ∈ listProduct (g :: gs) := by
  simp only [listProduct, List.mem_flatten, List.mem_map]
  exact ⟨(listProduct gs).map (fun u => a :: u), ⟨a, ha, rfl⟩,
    List.mem_map.mpr ⟨t, ht, rfl⟩⟩

lemma listProduct_exists_mem :
    ∀ gs : List (List (List Char)), (∀ g ∈ gs, g ≠ []) →
      ∃ combo, combo ∈ listProduct gs := by
  intro gs
  induction gs with
  | nil => exact fun _ => ⟨[], by simp [listProduct]⟩
  | cons g gs ih =>
      intro h
      obtain ⟨a, ha⟩ :=
        List.exists_mem_of_ne_nil g (h g (List.mem_cons_self _ _))
      obtain ⟨t, ht⟩ := ih (fun g2 hg2 => h g2 (List.mem_cons_of_mem _ hg2))
      exact ⟨a :: t, cons_mem_listProduct ha ht⟩

lemma splitBar_ne_nil : ∀ l : List Char, splitBar l ≠ []
  | [] => by simp [splitBar]
  | c :: cs => by
      simp only [splitBar]
      split
      · simp
      · split
        · simp
        · simp

lemma scanGroupsAux_groups_ne_nil :
    ∀ (fuel : Nat) (cs : List Char) (acc : List (List (List Char))),
      ∀ g ∈ (scanGroupsAux fuel cs acc).2, g ∈ acc ∨ g ≠ [] := by
  intro fuel
  induction fuel with
  | zero => intro cs acc g hg; exact Or.inl hg
  | succ fuel ih =>
      intro cs acc g hg
      match cs with
      | [] => exact Or.inl hg
      | c :: cs2 =>
          simp only [scanGroupsAux] at hg
          by_cases hc : (c == '(') = true
          · rw [if_pos hc] at hg
            cases hdrop : cs2.dropWhile isAltChar with
            | nil =>
                rw [hdrop] at hg
                dsimp only at hg
                exact ih cs2 acc g hg
            | cons e rest =>
                rw [hdrop] at hg
                dsimp only at hg
                by_cases he : (e == ')') = true
                · rw [if_pos he] at hg
                  rcases ih rest
                      (acc ++ [splitBar (cs2.takeWhile isAltChar)]) g hg with
                      hmem | hne
                  · rcases List.mem_append.mp hmem with hmem2 | hmem2
                    · exact Or.inl hmem2
                    · right
                      rw [List.mem_singleton.mp hmem2]
                      exact splitBar_ne_nil _
                  · exact Or.inr hne
                · rw [if_neg he] at hg
                  exact ih cs2 acc g hg
          · rw [if_neg hc] at hg
            exact ih cs2 acc g hg

lemma expandCombos_none_of_mem (sk : List Char) :
    ∀ (combos : List (List (List Char))) (combo : List (List Char)),
      combo ∈ combos → scanBackRefs combo sk = none →
      expandCombos sk combos = none := by
  intro combos
  induction combos with
  | nil => intro combo h _; cases h
  | cons c0 rest ih =>
      intro combo h hfail
      rcases List.mem_cons.mp h with rfl | h2
      · simp [expandCombos, hfail]
      · unfold expandCombos
        cases h0 : scanBackRefs c0 sk with
        | none => rfl
        | some s0 =>
            rw [ih combo h2 hfail]
            rfl

lemma to_sequence_set_none_of_dangling (p : List Char)
    (h : patternHasDangling p = true) : to_sequence_set p = none := by
  unfold patternHasDangling at h
  unfold to_sequence_set
  have hne : ∀ g ∈ (scanGroups p).2, g ≠ [] := by
    intro g hg
    unfold scanGroups at hg
    rcases scanGroupsAux_groups_ne_nil p.length p [] g hg with hmem | hne2
    · exact absurd hmem (List.not_mem_nil g)
    · exact hne2
  obtain ⟨combo, hcombo⟩ := listProduct_exists_mem _ hne
  have hlen : combo.length = (scanGroups p).2.length :=
    mem_listProduct_length _ _ hcombo
  have hfail : scanBackRefs combo (scanGroups p).1 = none :=
    hasDangling_scanBackRefs_none combo _ (by rw [hlen]; exact h)
  exact expandCombos_none_of_mem _ _ combo hcombo hfail

lemma processRecord_none (m : List (List Char × CharactersData))
    (l : List Char) (c : Char) (ab : Bool) (pat : List Char)
    (hm : matchCompliantLine l = some (c, ab, pat))
    (hp : to_sequence_set pat = none) : processRecord m l = none := by
  unfold processRecord
  rw [hm]
  dsimp only
  rw [hp]

lemma processCatalogue_none :
    ∀ (lines : List (List Char)) (m : List (List Char × CharactersData))
      (l : List Char), l ∈ lines →
      (∀ m2, processRecord m2 l = none) →
      processCatalogue lines m = none := by
  intro lines
  induction lines with
  | nil => intro m l h _; cases h
  | cons l0 rest ih =>
      intro m l hmem hfail
      rcases List.mem_cons.mp hmem with rfl | h2
      · unfold processCatalogue
        rw [hfail m]
      · unfold processCatalogue
        cases h0 : processRecord m l0 with
        | none => rfl
        | some m2 => exact ih m2 l h2 hfail

/-- C2: for every otherwise-compliant record whose pattern contains a
back-reference `\k` with `k` exceeding the number of capture groups
present in that pattern, the run fails loudly during expansion (the
`IndexError` raised in `replace_back_reference`, modelled as `none`),
and neither the exact table nor the prefix table is produced (the run's
result carries no tables). -/
theorem claim_C2 (ranking catalogue : List (List Char)) (l : List Char)
    (c : Char) (ab : Bool) (pat : List Char)
    (hmem : l ∈ catalogue)
    (hline : matchCompliantLine l = some (c, ab, pat))
    (hdangling : patternHasDangling pat = true) :
    runGenerator ranking catalogue = none := by
  have hexp := to_sequence_set_none_of_dangling pat hdangling
  have hrec : ∀ m2, processRecord m2 l = none := fun m2 =>
    processRecord_none m2 l c ab pat hline hexp
  unfold runGenerator
  rw [processCatalogue_none catalogue [] l hmem hrec]

theorem claim_C2_witness :
    runGenerator [] [['U', '+', '4', 'E', '0', '0', '\t', '一', '\t',
        '(', '1', ')', '\\', '2']] = none :=
  claim_C2 []
    [['U', '+', '4', 'E', '0', '0', '\t', '一', '\t', '(', '1', ')', '\\', '2']]
    ['U', '+', '4', 'E', '0', '0', '\t', '一', '\t', '(', '1', ')', '\\', '2']
    '一' false ['(', '1', ')', '\\', '2']
    (by decide) (by decide) (by decide)

/-! ## C3 and C10: serialization -/

/-- C3: for every `CharactersData` and positive maximum count `m`,
serialization returns the goodly characters sorted by the ordering
function and truncated to at most `m`, and appends a comma followed by
the abomination characters (similarly sorted, truncated to the clamped
budget `m - (length of the truncated goodly portion)`) exactly when the
abomination portion is non-empty after truncation; otherwise the comma
and the abomination section are omitted.  (The code computes the budget
from the untruncated goodly length; the two agree, as this theorem
shows.) -/
theorem claim_C3 (dta : CharactersData) (rk : Char → Nat) (m : Nat)
    (hm : 0 < m) :
    dta.to_string rk m =
      (let g := (join_sorted dta.goodly_set rk).take m
       let a := (join_sorted dta.abomination_set rk).take (m - g.length)
       if a = [] then g else g ++ ',' :: a) := by
  have hlen : m - ((join_sorted dta.goodly_set rk).take m).length =
      m - (join_sorted dta.goodly_set rk).length := by
    rw [List.length_take]
    omega
  simp only [CharactersData.to_string, if_pos hm, hlen]

theorem claim_C3_witness :
    CharactersData.to_string ⟨['b', 'd', 'c'], ['a']⟩ (fun _ => 0) 2 =
      ['b', 'c'] := by
  rw [claim_C3 ⟨['b', 'd', 'c'], ['a']⟩ (fun _ => 0) 2 (by decide)]
  decide

/-- C10: when the goodly set is empty and the abomination portion is
non-empty after truncation, serialization returns a comma immediately
followed by the sorted (truncated) abomination characters: the empty
goodly portion renders as the empty string and the comma is kept. -/
theorem claim_C10 (dta : CharactersData) (rk : Char → Nat) (m : Nat)
    (hg : dta.goodly_set = [])
    (ha : (if 0 < m then (join_sorted dta.abomination_set rk).take m
           else join_sorted dta.abomination_set rk) ≠ []) :
    dta.to_string rk m =
      ',' :: (if 0 < m then (join_sorted dta.abomination_set rk).take m
              else join_sorted dta.abomination_set rk) := by
  have hgs : join_sorted dta.goodly_set rk = [] := by
    rw [hg]
    rfl
  by_cases hm : 0 < m
  · rw [if_pos hm] at ha ⊢
    simp only [CharactersData.to_string, if_pos hm, hgs]
    simp only [List.length_nil, Nat.sub_zero, List.take_nil]
    rw [if_neg ha]
    rfl
  · rw [if_neg hm] at ha ⊢
    simp only [CharactersData.to_string, if_neg hm, hgs]
    rw [if_neg ha]
    rfl

theorem claim_C10_witness :
    CharactersData.to_string ⟨[], ['b', 'a']⟩ (fun _ => 0) 0 =
      ',' :: ['a', 'b'] := by
  have h := claim_C10 ⟨[], ['b', 'a']⟩ (fun _ => 0) 0 (by decide) (by decide)
  rw [h]
  decide

/-! ## C4: the rank table -/

/-- The 1-based number (counting ignored lines) of the first non-ignored
line containing a given character, starting the count at `ln`. -/
def firstRankLine : List (List Char) → Nat → Char → Option Nat
  | [], _, _ => none
  | l :: ls, ln, c =>
      if line_is_ignored l = false ∧ c ∈ l then some ln
      else firstRankLine ls (ln + 1) c

lemma rankFind_append_single (ranks : List (Char × Nat)) (d : Char)
    (ln : Nat) (c : Char) :
    rankFind (ranks ++ [(d, ln)]) c =
      match rankFind ranks c with
      | some r => some r
      | none => if c = d then some ln else none := by
  unfold rankFind
  rw [List.find?_append]
  cases h : ranks.find? (fun p => p.1 == c) with
  | some p => simp
  | none =>
      simp only [Option.none_or, Option.map_none']
      by_cases hcd : c = d
      · subst hcd
        simp
      · have hdc : (d == c) = false := by
          simp only [beq_eq_false_iff_ne, ne_eq]
          intro h2
          exact hcd h2.symm
        simp [List.find?, hdc, hcd]

lemma rankFind_foldl_addRankChar (l : List Char) :
    ∀ (st : RankState) (ln : Nat) (c : Char),
      rankFind (l.foldl (addRankChar ln) st).ranks c =
        match rankFind st.ranks c with
        | some r => some r
        | none => if c ∈ l then some ln else none := by
  induction l with
  | nil =>
      intro st ln c
      cases h : rankFind st.ranks c with
      | some r => simp [h]
      | none => simp [h]
  | cons d l ih =>
      intro st ln c
      rw [List.foldl_cons, ih]
      unfold addRankChar
      cases hd : rankFind st.ranks d with
      | some r =>
          cases hc : rankFind st.ranks c with
          | some r2 => simp [hc]
          | none =>
              simp only [hc]
              by_cases hcd : c = d
              · subst hcd
                rw [hc] at hd
                cases hd
              · simp [List.mem_cons, hcd]
      | none =>
          simp only
          rw [rankFind_append_single]
          cases hc : rankFind st.ranks c with
          | some r2 => simp [hc]
          | none =>
              simp only [hc]
              by_cases hcd : c = d
              · subst hcd
                simp
              · simp [List.mem_cons, hcd]

lemma rankFind_processRankingLines (ls : List (List Char)) :
    ∀ (st : RankState) (ln : Nat) (c : Char),
      rankFind (processRankingLines ls ln st).ranks c =
        match rankFind st.ranks c with
        | some r => some r
        | none => firstRankLine ls ln c := by
  induction ls with
  | nil =>
      intro st ln c
      cases h : rankFind st.ranks c with
      | some r => simp [processRankingLines, firstRankLine, h]
      | none => simp [processRankingLines, firstRankLine, h]
  | cons l ls ih =>
      intro st ln c
      unfold processRankingLines firstRankLine
      by_cases hig : line_is_ignored l = true
      · rw [if_pos hig, ih]
        have : ¬(line_is_ignored l = false ∧ c ∈ l) := by
          intro hand
          rw [hig] at hand
          cases hand.1
        rw [if_neg this]
      · have hig2 : line_is_ignored l = false := by
          cases h : line_is_ignored l
          · rfl
          · exact absurd h hig
        rw [if_neg hig, ih, rankFind_foldl_addRankChar]
        cases hc : rankFind st.ranks c with
        | some r => simp
        | none =>
            simp only
            by_cases hcl : c ∈ l
            · rw [if_pos hcl, if_pos ⟨hig2, hcl⟩]
            · rw [if_neg hcl, if_neg (fun hand => hcl hand.2)]

lemma addRankChar_invariant (ln : Nat) (st : RankState) (c : Char)
    (hinv : ∀ c2 r, rankFind st.ranks c2 = some r → r < st.infinite)
    (hle : st.infinite ≤ ln + 1) :
    (∀ c2 r, rankFind (addRankChar ln st c).ranks c2 = some r →
      r < (addRankChar ln st c).infinite) ∧
      (addRankChar ln st c).infinite ≤ ln + 1 := by
  unfold addRankChar
  cases hd : rankFind st.ranks c with
  | some r => exact ⟨hinv, hle⟩
  | none =>
      refine ⟨?_, le_refl _⟩
      intro c2 r h
      rw [rankFind_append_single] at h
      cases hc2 : rankFind st.ranks c2 with
      | some r2 =>
          rw [hc2] at h
          cases h
          calc r < st.infinite := hinv c2 r hc2
          _ ≤ ln + 1 := hle
      | none =>
          rw [hc2] at h
          by_cases hcc : c2 = c
          · rw [if_pos hcc] at h
            cases h
            exact Nat.lt_succ_self ln
          · rw [if_neg hcc] at h
            cases h

lemma foldl_addRankChar_invariant (l : List Char) :
    ∀ (st : RankState) (ln : Nat),
      (∀ c2 r, rankFind st.ranks c2 = some r → r < st.infinite) →
      st.infinite ≤ ln + 1 →
      (∀ c2 r, rankFind (l.foldl (addRankChar ln) st).ranks c2 = some r →
        r < (l.foldl (addRankChar ln) st).infinite) ∧
        (l.foldl (addRankChar ln) st).infinite ≤ ln + 1 := by
  induction l with
  | nil => intro st ln hinv hle; exact ⟨hinv, hle⟩
  | cons d l ih =>
      intro st ln hinv hle
      rw [List.foldl_cons]
      obtain ⟨h1, h2⟩ := addRankChar_invariant ln st d hinv hle
      exact ih _ ln h1 h2

lemma processRankingLines_invariant (ls : List (List Char)) :
    ∀ (st : RankState) (ln : Nat),
      (∀ c r, rankFind st.ranks c = some r → r < st.infinite) →
      st.infinite ≤ ln →
      ∀ c r, rankFind (processRankingLines ls ln st).ranks c = some r →
        r < (processRankingLines ls ln st).infinite := by
  induction ls with
  | nil => intro st ln hinv _ c r h; exact hinv c r h
  | cons l ls ih =>
      intro st ln hinv hle
      unfold processRankingLines
      by_cases hig : line_is_ignored l = true
      · rw [if_pos hig]
        exact ih st (ln + 1) hinv (hle.trans (Nat.le_succ ln))
      · rw [if_neg hig]
        obtain ⟨h1, h2⟩ := foldl_addRankChar_invariant l st ln hinv
          (hle.trans (Nat.le_succ ln))
        exact ih _ (ln + 1) h1 h2

/-- C4: for every ranking source and character, (1) the character's rank
is the 1-based line number, counting skipped comment lines, of the first
non-comment line containing it (later occurrences never change it: the
rank table equals the first-occurrence characterization); (2) every
explicitly assigned rank is strictly below `infinite_sorting_rank`, the
rank every unmentioned character receives; (3) a character mentioned in
no non-comment line sorts with the infinite rank; and (4) the ordering
key is the pair (rank, character): characters of equal rank are ordered
by the character's own natural ordering. -/
theorem claim_C4 (lines : List (List Char)) (c : Char) :
    (rankFind (rankState lines).ranks c = firstRankLine lines 1 c) ∧
    (∀ r, rankFind (rankState lines).ranks c = some r →
      r < (rankState lines).infinite) ∧
    (firstRankLine lines 1 c = none →
      sortingRank (rankState lines) c = (rankState lines).infinite) ∧
    (∀ a b : Char, sortingRank (rankState lines) a =
        sortingRank (rankState lines) b →
      (charRankLe (sortingRank (rankState lines)) a b ↔ a ≤ b)) := by
  have hfind : rankFind (rankState lines).ranks c = firstRankLine lines 1 c := by
    unfold rankState
    rw [rankFind_processRankingLines]
    rfl
  refine ⟨hfind, ?_, ?_, ?_⟩
  · intro r h
    exact processRankingLines_invariant lines ⟨[], 0⟩ 1
      (fun c2 r2 h2 => by cases h2) (Nat.zero_le 1) c r h
  · intro hnone
    unfold sortingRank
    rw [hfind, hnone]
    rfl
  · intro a b hab
    unfold charRankLe
    rw [hab]
    simp

theorem claim_C4_witness :
    ((1 : Nat) < (rankState [['a', 'b'], ['#', 'c', 'o', 'm'],
        ['c', 'd']]).infinite) ∧
      sortingRank (rankState [['a', 'b'], ['#', 'c', 'o', 'm'], ['c', 'd']])
        'z' = (rankState [['a', 'b'], ['#', 'c', 'o', 'm'], ['c', 'd']]).infinite :=
  ⟨(claim_C4 [['a', 'b'], ['#', 'c', 'o', 'm'], ['c', 'd']] 'a').2.1 1
      (by decide),
   (claim_C4 [['a', 'b'], ['#', 'c', 'o', 'm'], ['c', 'd']] 'z').2.2.1
      (by decide)⟩

/-! ## C6: the sentinel range test -/

/-- The regex class `[1-5]`: the stroke digits making up exact-table
sequences. -/
def isStrokeDigit (c : Char) : Bool := '1' ≤ c && c ≤ '5'

/-- Modelled from the spec's words for the refinement claim C6: the
direct test that `s` starts with `p` and is longer (not equal). -/
def startsWithAndLonger (p s : List Char) : Bool :=
  decide (s.take p.length = p) && decide (s ≠ p)

lemma pyLt_self_append (t : List Char) (ht : t ≠ []) :
    ∀ p : List Char, pyLt p (p ++ t) = true := by
  intro p
  induction p with
  | nil =>
      cases t with
      | nil => exact absurd rfl ht
      | cons x xs => rfl
  | cons a p ih =>
      simp only [List.cons_append, pyLt, lt_irrefl, if_false]
      exact ih

lemma pyLt_append_max (c : Char) (hc : c < MAX_CHARACTER) (t : List Char) :
    ∀ p : List Char, pyLt (p ++ c :: t) (p ++ [MAX_CHARACTER]) = true := by
  intro p
  induction p with
  | nil =>
      simp only [List.nil_append, pyLt, if_pos hc]
  | cons a p ih =>
      simp only [List.cons_append, pyLt, lt_irrefl, if_false]
      exact ih

lemma pyLt_sandwich :
    ∀ (p s : List Char), pyLt p s = true →
      pyLt s (p ++ [MAX_CHARACTER]) = true →
      s.take p.length = p ∧ s ≠ p
  | [], s, h1, _ => by
      refine ⟨rfl, ?_⟩
      cases s with
      | nil => cases h1
      | cons b s2 => exact fun h => List.noConfusion h
  | a :: p, [], h1, _ => by cases h1
  | a :: p, b :: s, h1, h2 => by
      simp only [pyLt] at h1
      simp only [List.cons_append, pyLt] at h2
      by_cases hab : a < b
      · rw [if_neg (lt_asymm hab), if_pos hab] at h2
        cases h2
      · by_cases hba : b < a
        · rw [if_neg hab, if_pos hba] at h1
          cases h1
        · have heq : a = b := le_antisymm (le_of_not_lt hba) (le_of_not_lt hab)
          subst heq
          rw [if_neg hab, if_neg hba] at h1 h2
          obtain ⟨htake, hne⟩ := pyLt_sandwich p s h1 h2
          refine ⟨?_, ?_⟩
          · simp only [List.length_cons, List.take_succ_cons, htake]
          · intro h
            injection h with h1 h2
            exact hne h2

lemma rangeTest_of_startsWith (p s : List Char)
    (hdig : s.all isStrokeDigit = true)
    (htake : s.take p.length = p) (hne : s ≠ p) :
    rangeTest p s = true := by
  have hsplit : p ++ s.drop p.length = s := by
    conv_rhs => rw [← List.take_append_drop p.length s]
    rw [htake]
  have hdrop_ne : s.drop p.length ≠ [] := by
    intro h
    rw [h, List.append_nil] at hsplit
    exact hne hsplit.symm
  obtain ⟨c, t, hct⟩ := List.exists_cons_of_ne_nil hdrop_ne
  have hcs : c ∈ s := by
    rw [← hsplit, hct]
    exact List.mem_append_right _ (List.mem_cons_self _ _)
  have hcdig : isStrokeDigit c = true := by
    rw [List.all_eq_true] at hdig
    exact hdig c hcs
  have hcmax : c < MAX_CHARACTER := by
    have h5 : c ≤ '5' := by
      unfold isStrokeDigit at hcdig
      rw [Bool.and_eq_true] at hcdig
      exact of_decide_eq_true hcdig.2
    have hmax : ('5' : Char) < MAX_CHARACTER := by decide
    exact lt_of_le_of_lt h5 hmax
  unfold rangeTest
  rw [← hsplit, hct]
  rw [pyLt_self_append (c :: t) (fun h => List.noConfusion h) p]
  rw [pyLt_append_max c hcmax t p]
  rfl

/-- C6: for every string `p` and every string `s` over the stroke digits,
the sentinel range test `p < s < p + MAX_CHARACTER` used to select
exact-table entries for a prefix coincides with the direct
starts-with-and-longer test. -/
theorem claim_C6 (p s : List Char) (hdig : s.all isStrokeDigit = true) :
    rangeTest p s = startsWithAndLonger p s := by
  cases hr : rangeTest p s with
  | true =>
      unfold rangeTest at hr
      rw [Bool.and_eq_true] at hr
      obtain ⟨htake, hne⟩ := pyLt_sandwich p s hr.1 hr.2
      unfold startsWithAndLonger
      rw [decide_eq_true htake, decide_eq_true hne]
      rfl
  | false =>
      cases hsw : startsWithAndLonger p s with
      | false => rfl
      | true =>
          unfold startsWithAndLonger at hsw
          rw [Bool.and_eq_true] at hsw
          have htake := of_decide_eq_true hsw.1
          have hne := of_decide_eq_true hsw.2
          rw [rangeTest_of_startsWith p s hdig htake hne] at hr
          cases hr

theorem claim_C6_witness :
    rangeTest ['1'] ['1', '2'] = startsWithAndLonger ['1'] ['1', '2'] ∧
      rangeTest ['1'] ['1'] = startsWithAndLonger ['1'] ['1'] ∧
      rangeTest ['1'] ['2', '1'] = startsWithAndLonger ['1'] ['2', '1'] :=
  ⟨claim_C6 ['1'] ['1', '2'] (by decide),
   claim_C6 ['1'] ['1'] (by decide),
   claim_C6 ['1'] ['2', '1'] (by decide)⟩

/-! ## C5: prefix containment -/

lemma setInsertChar_mem (c d : Char) (l : List Char) :
    c ∈ setInsertChar d l ↔ c = d ∨ c ∈ l := by
  unfold setInsertChar
  split
  · rename_i hmem
    constructor
    · exact Or.inr
    · rintro (rfl | h)
      · exact hmem
      · exact h
  · simp [List.mem_append, or_comm]

lemma foldl_add_goodly (l : List Char) :
    ∀ (a : CharactersData) (c : Char),
      (c ∈ (l.foldl CharactersData.add_goodly a).goodly_set ↔
        c ∈ a.goodly_set ∨ c ∈ l) ∧
      (l.foldl CharactersData.add_goodly a).abomination_set =
        a.abomination_set := by
  induction l with
  | nil => intro a c; simp
  | cons d l ih =>
      intro a c
      rw [List.foldl_cons]
      refine ⟨?_, ?_⟩
      · rw [(ih (a.add_goodly d) c).1]
        unfold CharactersData.add_goodly
        simp only [setInsertChar_mem, List.mem_cons]
        tauto
      · rw [(ih (a.add_goodly d) c).2]
        rfl

lemma foldl_add_abomination (l : List Char) :
    ∀ (a : CharactersData) (c : Char),
      (c ∈ (l.foldl CharactersData.add_abomination a).abomination_set ↔
        c ∈ a.abomination_set ∨ c ∈ l) ∧
      (l.foldl CharactersData.add_abomination a).goodly_set =
        a.goodly_set := by
  induction l with
  | nil => intro a c; simp
  | cons d l ih =>
      intro a c
      rw [List.foldl_cons]
      refine ⟨?_, ?_⟩
      · rw [(ih (a.add_abomination d) c).1]
        unfold CharactersData.add_abomination
        simp only [setInsertChar_mem, List.mem_cons]
        tauto
      · rw [(ih (a.add_abomination d) c).2]
        rfl

lemma add_data_goodly_mem (a b : CharactersData) (c : Char) :
    c ∈ (a.add_data b).goodly_set ↔
      c ∈ a.goodly_set ∨ c ∈ b.goodly_set := by
  unfold CharactersData.add_data
  rw [(foldl_add_abomination b.abomination_set _ c).2]
  exact (foldl_add_goodly b.goodly_set a c).1

lemma add_data_abomination_mem (a b : CharactersData) (c : Char) :
    c ∈ (a.add_data b).abomination_set ↔
      c ∈ a.abomination_set ∨ c ∈ b.abomination_set := by
  unfold CharactersData.add_data
  rw [(foldl_add_abomination b.abomination_set _ c).1,
    (foldl_add_goodly b.goodly_set a c).2]

lemma aggregate_foldl_goodly_mem (p : List Char) (c : Char) :
    ∀ (m : List (List Char × CharactersData)) (acc : CharactersData),
      (c ∈ (m.foldl (fun acc kv =>
          if rangeTest p kv.1 then acc.add_data kv.2 else acc) acc).goodly_set ↔
        c ∈ acc.goodly_set ∨
          ∃ kv, kv ∈ m ∧ rangeTest p kv.1 = true ∧ c ∈ kv.2.goodly_set) := by
  intro m
  induction m with
  | nil => intro acc; simp
  | cons kv0 m ih =>
      intro acc
      rw [List.foldl_cons, ih]
      by_cases hr : rangeTest p kv0.1 = true
      · rw [if_pos hr, add_data_goodly_mem]
        constructor
        · rintro ((h | h) | ⟨kv, hkv, hkvr, hkvc⟩)
          · exact Or.inl h
          · exact Or.inr ⟨kv0, List.mem_cons_self _ _, hr, h⟩
          · exact Or.inr ⟨kv, List.mem_cons_of_mem _ hkv, hkvr, hkvc⟩
        · rintro (h | ⟨kv, hkv, hkvr, hkvc⟩)
          · exact Or.inl (Or.inl h)
          · rcases List.mem_cons.mp hkv with rfl | hkv2
            · exact Or.inl (Or.inr hkvc)
            · exact Or.inr ⟨kv, hkv2, hkvr, hkvc⟩
      · rw [if_neg hr]
        constructor
        · rintro (h | ⟨kv, hkv, hkvr, hkvc⟩)
          · exact Or.inl h
          · exact Or.inr ⟨kv, List.mem_cons_of_mem _ hkv, hkvr, hkvc⟩
        · rintro (h | ⟨kv, hkv, hkvr, hkvc⟩)
          · exact Or.inl h
          · rcases List.mem_cons.mp hkv with rfl | hkv2
            · exact absurd hkvr hr
            · exact Or.inr ⟨kv, hkv2, hkvr, hkvc⟩

lemma aggregate_foldl_abomination_mem (p : List Char) (c : Char) :
    ∀ (m : List (List Char × CharactersData)) (acc : CharactersData),
      (c ∈ (m.foldl (fun acc kv =>
          if rangeTest p kv.1 then acc.add_data kv.2 else acc)
            acc).abomination_set ↔
        c ∈ acc.abomination_set ∨
          ∃ kv, kv ∈ m ∧ rangeTest p kv.1 = true ∧
            c ∈ kv.2.abomination_set) := by
  intro m
  induction m with
  | nil => intro acc; simp
  | cons kv0 m ih =>
      intro acc
      rw [List.foldl_cons, ih]
      by_cases hr : rangeTest p kv0.1 = true
      · rw [if_pos hr, add_data_abomination_mem]
        constructor
        · rintro ((h | h) | ⟨kv, hkv, hkvr, hkvc⟩)
          · exact Or.inl h
          · exact Or.inr ⟨kv0, List.mem_cons_self _ _, hr, h⟩
          · exact Or.inr ⟨kv, List.mem_cons_of_mem _ hkv, hkvr, hkvc⟩
        · rintro (h | ⟨kv, hkv, hkvr, hkvc⟩)
          · exact Or.inl (Or.inl h)
          · rcases List.mem_cons.mp hkv with rfl | hkv2
            · exact Or.inl (Or.inr hkvc)
            · exact Or.inr ⟨kv, hkv2, hkvr, hkvc⟩
      · rw [if_neg hr]
        constructor
        · rintro (h | ⟨kv, hkv, hkvr, hkvc⟩)
          · exact Or.inl h
          · exact Or.inr ⟨kv, List.mem_cons_of_mem _ hkv, hkvr, hkvc⟩
        · rintro (h | ⟨kv, hkv, hkvr, hkvc⟩)
          · exact Or.inl h
          · rcases List.mem_cons.mp hkv with rfl | hkv2
            · exact absurd hkvr hr
            · exact Or.inr ⟨kv, hkv2, hkvr, hkvc⟩

lemma aggregateData_goodly_mem (m : List (List Char × CharactersData))
    (p : List Char) (c : Char) :
    c ∈ (aggregateData m p).goodly_set ↔
      ∃ kv, kv ∈ m ∧ rangeTest p kv.1 = true ∧ c ∈ kv.2.goodly_set := by
  unfold aggregateData
  rw [aggregate_foldl_goodly_mem]
  simp

lemma aggregateData_abomination_mem (m : List (List Char × CharactersData))
    (p : List Char) (c : Char) :
    c ∈ (aggregateData m p).abomination_set ↔
      ∃ kv, kv ∈ m ∧ rangeTest p kv.1 = true ∧
        c ∈ kv.2.abomination_set := by
  unfold aggregateData
  rw [aggregate_foldl_abomination_mem]
  simp

/-- C5: for every prefix `p` of length 1–3 and every exact-table entry
`(s, dta)` with `s` a digit string strictly longer than `p` and starting
with `p`, every goodly (respectively abomination) character of `dta` is
contained in the goodly (respectively abomination) set of the aggregated
`CharactersData` computed for `p`, before serialization truncation. -/
theorem claim_C5 (m : List (List Char × CharactersData)) (p s : List Char)
    (dta : CharactersData) (c : Char)
    (_hlen : 1 ≤ p.length ∧ p.length ≤ PRECOMPUTE_MAX_STOKE_COUNT)
    (hmem : (s, dta) ∈ m)
    (hdig : s.all isStrokeDigit = true)
    (htake : s.take p.length = p) (hne : s ≠ p) :
    (c ∈ dta.goodly_set → c ∈ (aggregateData m p).goodly_set) ∧
    (c ∈ dta.abomination_set → c ∈ (aggregateData m p).abomination_set) := by
  have hr : rangeTest p s = true := rangeTest_of_startsWith p s hdig htake hne
  constructor
  · intro hc
    exact (aggregateData_goodly_mem m p c).mpr ⟨(s, dta), hmem, hr, hc⟩
  · intro hc
    exact (aggregateData_abomination_mem m p c).mpr ⟨(s, dta), hmem, hr, hc⟩

theorem claim_C5_witness :
    'x' ∈ (aggregateData [(['1', '2'], ⟨['x'], ['y']⟩)] ['1']).goodly_set ∧
    'y' ∈ (aggregateData [(['1', '2'], ⟨['x'], ['y']⟩)]
        ['1']).abomination_set :=
  ⟨(claim_C5 [(['1', '2'], ⟨['x'], ['y']⟩)] ['1'] ['1', '2'] ⟨['x'], ['y']⟩
      'x' (by decide) (by decide) (by decide) (by decide) (by decide)).1
      (by decide),
   (claim_C5 [(['1', '2'], ⟨['x'], ['y']⟩)] ['1'] ['1', '2'] ⟨['x'], ['y']⟩
      'y' (by decide) (by decide) (by decide) (by decide) (by decide)).2
      (by decide)⟩

/-! ## C8: output depends only on set content -/

lemma pyLt_irrefl : ∀ l : List Char, pyLt l l = false
  | [] => rfl
  | x :: xs => by
      simp only [pyLt, lt_irrefl, if_false]
      exact pyLt_irrefl xs

lemma pyLt_trans :
    ∀ a b c : List Char, pyLt a b = true → pyLt b c = true →
      pyLt a c = true := by
  intro a
  induction a with
  | nil =>
      intro b c h1 h2
      cases b with
      | nil => simp [pyLt] at h1
      | cons y ys =>
          cases c with
          | nil => simp [pyLt] at h2
          | cons z zs => rfl
  | cons x xs ih =>
      intro b c h1 h2
      cases b with
      | nil => simp [pyLt] at h1
      | cons y ys =>
          cases c with
          | nil => simp [pyLt] at h2
          | cons z zs =>
              simp only [pyLt] at h1 h2 ⊢
              by_cases hxy : x < y
              · by_cases hyz : y < z
                · rw [if_pos (hxy.trans hyz)]
                · by_cases hzy : z < y
                  · rw [if_neg hyz, if_pos hzy] at h2
                    cases h2
                  · have hyeq : y = z :=
                      le_antisymm (le_of_not_lt hzy) (le_of_not_lt hyz)
                    rw [if_pos (hyeq ▸ hxy)]
              · by_cases hyx : y < x
                · rw [if_neg hxy, if_pos hyx] at h1
                  cases h1
                · have hxeq : x = y :=
                    le_antisymm (le_of_not_lt hyx) (le_of_not_lt hxy)
                  subst hxeq
                  rw [if_neg hxy, if_neg hyx] at h1
                  by_cases hyz : x < z
                  · rw [if_pos hyz]
                  · by_cases hzy : z < x
                    · rw [if_neg hyz, if_pos hzy] at h2
                      cases h2
                    · rw [if_neg hyz, if_neg hzy] at h2 ⊢
                      exact ih ys zs h1 h2

lemma pyLt_eq_of_not :
    ∀ a b : List Char, pyLt a b = false → pyLt b a = false → a = b
  | [], [], _, _ => rfl
  | [], _ :: _, h1, _ => by cases h1
  | _ :: _, [], _, h2 => by cases h2
  | x :: xs, y :: ys, h1, h2 => by
      simp only [pyLt] at h1 h2
      by_cases hxy : x < y
      · rw [if_pos hxy] at h1
        cases h1
      · by_cases hyx : y < x
        · rw [if_pos hyx] at h2
          cases h2
        · have hxeq : x = y := le_antisymm (le_of_not_lt hyx) (le_of_not_lt hxy)
          subst hxeq
          rw [if_neg hxy, if_neg hxy] at h1
          rw [if_neg hyx, if_neg hyx] at h2
          rw [pyLt_eq_of_not xs ys h1 h2]

instance : IsTotal (List Char) pyLe where
  total a b := by
    cases h1 : pyLt a b with
    | true => exact Or.inl (Or.inl h1)
    | false =>
        cases h2 : pyLt b a with
        | true => exact Or.inr (Or.inl h2)
        | false => exact Or.inl (Or.inr (pyLt_eq_of_not a b h1 h2))

instance : IsTrans (List Char) pyLe where
  trans a b c hab hbc := by
    rcases hab with hab | rfl
    · rcases hbc with hbc | rfl
      · exact Or.inl (pyLt_trans a b c hab hbc)
      · exact Or.inl hab
    · exact hbc

instance : IsAntisymm (List Char) pyLe where
  antisymm a b hab hba := by
    rcases hab with hab | rfl
    · rcases hba with hba | rfl
      · have := pyLt_trans a b a hab hba
        rw [pyLt_irrefl a] at this
        cases this
      · rfl
    · rfl

/-- Sorting with the key `(rank, character)` depends only on the set of
characters: duplicate-free lists with the same membership sort to the
same string. -/
lemma join_sorted_eq_of_set_eq (rk : Char → Nat) (l1 l2 : List Char)
    (h1 : l1.Nodup) (h2 : l2.Nodup)
    (h12 : ∀ a ∈ l1, a ∈ l2) (h21 : ∀ a ∈ l2, a ∈ l1) :
    join_sorted l1 rk = join_sorted l2 rk := by
  have hperm : List.Perm l1 l2 :=
    (List.perm_ext_iff_of_nodup h1 h2).mpr (fun a => ⟨h12 a, h21 a⟩)
  have hp : List.Perm (List.insertionSort (charRankLe rk) l1)
      (List.insertionSort (charRankLe rk) l2) :=
    (List.perm_insertionSort _ l1).trans
      (hperm.trans (List.perm_insertionSort _ l2).symm)
  exact List.eq_of_perm_of_sorted hp
    (List.sorted_insertionSort _ l1) (List.sorted_insertionSort _ l2)

/-- Sorting the sequence keys depends only on the set of keys. -/
lemma sortSequences_eq_of_set_eq (l1 l2 : List (List Char))
    (h1 : l1.Nodup) (h2 : l2.Nodup)
    (h12 : ∀ a ∈ l1, a ∈ l2) (h21 : ∀ a ∈ l2, a ∈ l1) :
    sortSequences l1 = sortSequences l2 := by
  have hperm : List.Perm l1 l2 :=
    (List.perm_ext_iff_of_nodup h1 h2).mpr (fun a => ⟨h12 a, h21 a⟩)
  have hp : List.Perm (List.insertionSort pyLe l1)
      (List.insertionSort pyLe l2) :=
    (List.perm_insertionSort _ l1).trans
      (hperm.trans (List.perm_insertionSort _ l2).symm)
  exact List.eq_of_perm_of_sorted hp
    (List.sorted_insertionSort _ l1) (List.sorted_insertionSort _ l2)

/-- Two characters-data represent the same two sets: both duplicate-free
and mutually contained. -/
def DataEquiv (d1 d2 : CharactersData) : Prop :=
  d1.goodly_set.Nodup ∧ d2.goodly_set.Nodup ∧
  (∀ a ∈ d1.goodly_set, a ∈ d2.goodly_set) ∧
  (∀ a ∈ d2.goodly_set, a ∈ d1.goodly_set) ∧
  d1.abomination_set.Nodup ∧ d2.abomination_set.Nodup ∧
  (∀ a ∈ d1.abomination_set, a ∈ d2.abomination_set) ∧
  (∀ a ∈ d2.abomination_set, a ∈ d1.abomination_set)

instance (d1 d2 : CharactersData) : Decidable (DataEquiv d1 d2) := by
  unfold DataEquiv; infer_instance

/-- Serialization depends only on the two sets' content. -/
lemma to_string_eq_of_DataEquiv (rk : Char → Nat) (n : Nat)
    (d1 d2 : CharactersData) (h : DataEquiv d1 d2) :
    d1.to_string rk n = d2.to_string rk n := by
  obtain ⟨hg1, hg2, hg12, hg21, ha1, ha2, ha12, ha21⟩ := h
  unfold CharactersData.to_string
  rw [join_sorted_eq_of_set_eq rk d1.goodly_set d2.goodly_set hg1 hg2 hg12 hg21,
    join_sorted_eq_of_set_eq rk d1.abomination_set d2.abomination_set
      ha1 ha2 ha12 ha21]

lemma setInsertChar_nodup (c : Char) (l : List Char) (h : l.Nodup) :
    (setInsertChar c l).Nodup := by
  unfold setInsertChar
  split
  · exact h
  · rename_i hcl
    rw [List.nodup_append]
    refine ⟨h, List.nodup_singleton c, ?_⟩
    intro a ha hac
    rw [List.mem_singleton] at hac
    subst hac
    exact hcl ha

lemma foldl_add_goodly_nodup (l : List Char) :
    ∀ a : CharactersData, a.goodly_set.Nodup →
      (l.foldl CharactersData.add_goodly a).goodly_set.Nodup := by
  induction l with
  | nil => intro a h; exact h
  | cons d l ih =>
      intro a h
      rw [List.foldl_cons]
      exact ih _ (setInsertChar_nodup d _ h)

lemma foldl_add_abomination_nodup (l : List Char) :
    ∀ a : CharactersData, a.abomination_set.Nodup →
      (l.foldl CharactersData.add_abomination a).abomination_set.Nodup := by
  induction l with
  | nil => intro a h; exact h
  | cons d l ih =>
      intro a h
      rw [List.foldl_cons]
      exact ih _ (setInsertChar_nodup d _ h)

lemma add_data_nodup (a b : CharactersData) (hg : a.goodly_set.Nodup)
    (ha : a.abomination_set.Nodup) :
    (a.add_data b).goodly_set.Nodup ∧
      (a.add_data b).abomination_set.Nodup := by
  unfold CharactersData.add_data
  constructor
  · rw [(foldl_add_abomination b.abomination_set _ 'a').2]
    exact foldl_add_goodly_nodup b.goodly_set a hg
  · refine foldl_add_abomination_nodup b.abomination_set _ ?_
    rw [(foldl_add_goodly b.goodly_set a 'a').2]
    exact ha

lemma aggregateData_nodup (m : List (List Char × CharactersData))
    (p : List Char) :
    (aggregateData m p).goodly_set.Nodup ∧
      (aggregateData m p).abomination_set.Nodup := by
  unfold aggregateData
  suffices hgen : ∀ (m2 : List (List Char × CharactersData))
      (acc : CharactersData), acc.goodly_set.Nodup →
      acc.abomination_set.Nodup →
      (m2.foldl (fun acc kv =>
          if rangeTest p kv.1 then acc.add_data kv.2 else acc)
        acc).goodly_set.Nodup ∧
      (m2.foldl (fun acc kv =>
          if rangeTest p kv.1 then acc.add_data kv.2 else acc)
        acc).abomination_set.Nodup by
    exact hgen m ⟨[], []⟩ List.nodup_nil List.nodup_nil
  intro m2
  induction m2 with
  | nil => intro acc hg ha; exact ⟨hg, ha⟩
  | cons kv m2 ih =>
      intro acc hg ha
      rw [List.foldl_cons]
      by_cases hr : rangeTest p kv.1 = true
      · rw [if_pos hr]
        obtain ⟨hg2, ha2⟩ := add_data_nodup acc kv.2 hg ha
        exact ih _ hg2 ha2
      · rw [if_neg hr]
        exact ih _ hg ha

lemma mapFind_mem (m : List (List Char × CharactersData)) (s : List Char)
    (h : s ∈ m.map Prod.fst) : (s, mapFind m s) ∈ m := by
  induction m with
  | nil => cases h
  | cons kv m ih =>
      unfold mapFind
      rw [List.find?_cons]
      by_cases hk : (kv.1 == s) = true
      · rw [hk]
        have hks : kv.1 = s := beq_iff_eq.mp hk
        subst hks
        exact List.mem_cons_self _ _
      · rw [Bool.not_eq_true] at hk
        rw [hk]
        have hs2 : s ∈ m.map Prod.fst := by
          rw [List.map_cons, List.mem_cons] at h
          rcases h with rfl | h2
          · have htrue : (kv.1 == kv.1) = true := beq_iff_eq.mpr rfl
            rw [hk] at htrue
            cases htrue
          · exact h2
        exact List.mem_cons_of_mem _ (ih hs2)

/-- Two accumulated exact maps represent the same abstract mapping:
duplicate-free key lists with the same key membership, and set-equal
characters data at equal keys. -/
def MapEquiv (m1 m2 : List (List Char × CharactersData)) : Prop :=
  (m1.map Prod.fst).Nodup ∧ (m2.map Prod.fst).Nodup ∧
  (∀ s ∈ m1.map Prod.fst, s ∈ m2.map Prod.fst) ∧
  (∀ s ∈ m2.map Prod.fst, s ∈ m1.map Prod.fst) ∧
  ∀ kv1 ∈ m1, ∀ kv2 ∈ m2, kv1.1 = kv2.1 → DataEquiv kv1.2 kv2.2

instance (m1 m2 : List (List Char × CharactersData)) :
    Decidable (MapEquiv m1 m2) := by
  unfold MapEquiv; infer_instance

lemma aggregate_DataEquiv (m1 m2 : List (List Char × CharactersData))
    (h : MapEquiv m1 m2) (p : List Char) :
    DataEquiv (aggregateData m1 p) (aggregateData m2 p) := by
  obtain ⟨hn1, hn2, h12, h21, hpair⟩ := h
  obtain ⟨hgn1, han1⟩ := aggregateData_nodup m1 p
  obtain ⟨hgn2, han2⟩ := aggregateData_nodup m2 p
  refine ⟨hgn1, hgn2, ?_, ?_, han1, han2, ?_, ?_⟩
  · intro c hc
    obtain ⟨kv, hkv, hr, hcg⟩ := (aggregateData_goodly_mem m1 p c).mp hc
    have hk2 : kv.1 ∈ m2.map Prod.fst :=
      h12 kv.1 (List.mem_map_of_mem Prod.fst hkv)
    have hmem2 := mapFind_mem m2 kv.1 hk2
    have hde := hpair kv hkv (kv.1, mapFind m2 kv.1) hmem2 rfl
    exact (aggregateData_goodly_mem m2 p c).mpr
      ⟨(kv.1, mapFind m2 kv.1), hmem2, hr, hde.2.2.1 c hcg⟩
  · intro c hc
    obtain ⟨kv, hkv, hr, hcg⟩ := (aggregateData_goodly_mem m2 p c).mp hc
    have hk1 : kv.1 ∈ m1.map Prod.fst :=
      h21 kv.1 (List.mem_map_of_mem Prod.fst hkv)
    have hmem1 := mapFind_mem m1 kv.1 hk1
    have hde := hpair (kv.1, mapFind m1 kv.1) hmem1 kv hkv rfl
    exact (aggregateData_goodly_mem m1 p c).mpr
      ⟨(kv.1, mapFind m1 kv.1), hmem1, hr, hde.2.2.2.1 c hcg⟩
  · intro c hc
    obtain ⟨kv, hkv, hr, hcg⟩ := (aggregateData_abomination_mem m1 p c).mp hc
    have hk2 : kv.1 ∈ m2.map Prod.fst :=
      h12 kv.1 (List.mem_map_of_mem Prod.fst hkv)
    have hmem2 := mapFind_mem m2 kv.1 hk2
    have hde := hpair kv hkv (kv.1, mapFind m2 kv.1) hmem2 rfl
    exact (aggregateData_abomination_mem m2 p c).mpr
      ⟨(kv.1, mapFind m2 kv.1), hmem2, hr, hde.2.2.2.2.2.2.1 c hcg⟩
  · intro c hc
    obtain ⟨kv, hkv, hr, hcg⟩ := (aggregateData_abomination_mem m2 p c).mp hc
    have hk1 : kv.1 ∈ m1.map Prod.fst :=
      h21 kv.1 (List.mem_map_of_mem Prod.fst hkv)
    have hmem1 := mapFind_mem m1 kv.1 hk1
    have hde := hpair (kv.1, mapFind m1 kv.1) hmem1 kv hkv rfl
    exact (aggregateData_abomination_mem m1 p c).mpr
      ⟨(kv.1, mapFind m1 kv.1), hmem1, hr, hde.2.2.2.2.2.2.2 c hcg⟩

/-- C8: the emitted exact-table and prefix-table lines are independent of
set and hash iteration order: any two accumulated maps representing the
same abstract `sequence → CharactersData` mapping (keys in any order,
each character set in any order) emit byte-identical tables, because
sequences are sorted before emission, prefixes are generated in a fixed
order, and character sets are sorted by the rank ordering before
serialization.  Since the generator is otherwise a pure function of its
input lines, two runs on identical inputs produce identical tables. -/
theorem claim_C8 (rk : Char → Nat)
    (m1 m2 : List (List Char × CharactersData)) (h : MapEquiv m1 m2) :
    emitTables rk m1 = emitTables rk m2 := by
  have hkeys : sortSequences (m1.map Prod.fst) =
      sortSequences (m2.map Prod.fst) :=
    sortSequences_eq_of_set_eq _ _ h.1 h.2.1 h.2.2.1 h.2.2.2.1
  obtain ⟨hn1, hn2, h12, h21, hpair⟩ := h
  unfold emitTables
  rw [hkeys]
  have hexact : (sortSequences (m2.map Prod.fst)).map
      (fun s => s ++ '\t' :: (mapFind m1 s).to_string rk) =
      (sortSequences (m2.map Prod.fst)).map
      (fun s => s ++ '\t' :: (mapFind m2 s).to_string rk) := by
    apply List.map_congr_left
    intro s hs
    have hs2 : s ∈ m2.map Prod.fst := by
      unfold sortSequences at hs
      exact (List.perm_insertionSort pyLe (m2.map Prod.fst)).mem_iff.mp hs
    have hs1 : s ∈ m1.map Prod.fst := h21 s hs2
    have hm1 := mapFind_mem m1 s hs1
    have hm2 := mapFind_mem m2 s hs2
    have hde := hpair (s, mapFind m1 s) hm1 (s, mapFind m2 s) hm2 rfl
    rw [to_string_eq_of_DataEquiv rk 0 _ _ hde]
  have hpfx : pfxSequenceList.map
      (fun p => p ++ '\t' ::
        (aggregateData m1 p).to_string rk MAX_PFX_MATCH_COUNT) =
      pfxSequenceList.map
      (fun p => p ++ '\t' ::
        (aggregateData m2 p).to_string rk MAX_PFX_MATCH_COUNT) := by
    apply List.map_congr_left
    intro p _
    rw [to_string_eq_of_DataEquiv rk MAX_PFX_MATCH_COUNT _ _
      (aggregate_DataEquiv m1 m2 ⟨hn1, hn2, h12, h21, hpair⟩ p)]
  rw [hexact, hpfx]

theorem claim_C8_witness :
    emitTables (fun _ => 0)
        [(['1'], ⟨['a', 'b'], ['d']⟩), (['1', '2'], ⟨['c'], []⟩)] =
      emitTables (fun _ => 0)
        [(['1', '2'], ⟨['c'], []⟩), (['1'], ⟨['b', 'a'], ['d']⟩)] :=
  claim_C8 (fun _ => 0)
    [(['1'], ⟨['a', 'b'], ['d']⟩), (['1', '2'], ⟨['c'], []⟩)]
    [(['1', '2'], ⟨['c'], []⟩), (['1'], ⟨['b', 'a'], ['d']⟩)]
    (by decide)

end StrokeData
